import Mathlib

/-!
# Verification of the CYK visualizer's algorithmic core

Shallow embedding of the algorithmic core of `src/src/App.jsx`
(the CYK-algorithm visualizer): the grammar compiler
`parseGrammarFromText`, the two recognizers `cykWithPointers` and
`cykAlgorithm`, the tree builder `buildParseTree`, and the two inline
tokenizers of the Simulator and PGC tabs.

Strings are modelled as `List Char` for all text processing (every
character appearing in the program's inputs is in the Basic Multilingual
Plane, so JavaScript UTF-16 code-unit indices coincide with character
indices).  JS `Set`s are modelled as insertion-ordered duplicate-free
lists (`addUnique`), JS objects / `Map`s keyed by strings as
insertion-ordered association lists.  The diagnostic step strings of
`cykAlgorithm` are modelled as structured events carrying the same data
(the text rendering is presentation only).
-/

set_option maxRecDepth 4000

namespace CykViz

/-- JS whitespace (`\s`), restricted to the characters this code base
can encounter: space, tab, newline, carriage return. -/
def isWs (c : Char) : Bool :=
  c == ' ' || c == '\t' || c == '\n' || c == '\r'

/-- JS `String.prototype.trim`. -/
def trimL (l : List Char) : List Char :=
  ((l.dropWhile isWs).reverse.dropWhile isWs).reverse

/-- JS `str.split(sep)` for a single-character separator: split at every
occurrence, keeping empty chunks (`"a||b".split("|") = ["a","","b"]`). -/
def splitChar (sep : Char) : List Char → List (List Char)
  | [] => [[]]
  | c :: rest =>
    if c = sep then [] :: splitChar sep rest
    else
      match splitChar sep rest with
      | [] => [[c]]
      | h :: t => (c :: h) :: t

/-- Worker for `wsSplit`: `skipping` records whether we are inside a
run of whitespace (whose chunk boundary has already been emitted);
`cur` is the current chunk accumulated in reverse. -/
def wsSplitGo (skipping : Bool) (cur : List Char) : List Char → List (List Char)
  | [] => if skipping then [[]] else [cur.reverse]
  | c :: rest =>
    if isWs c then
      if skipping then wsSplitGo true [] rest
      else cur.reverse :: wsSplitGo true [] rest
    else
      wsSplitGo false (c :: cur) rest

/-- JS `str.split(/\s+/)`: split at maximal whitespace runs; a leading
or trailing run contributes an empty chunk, and `"".split(/\s+/) = [""]`. -/
def wsSplit (l : List Char) : List (List Char) :=
  wsSplitGo false [] l

/-- Whether the pattern occurs in `l` starting at index `k`. -/
def occursAt (pat l : List Char) (k : Nat) : Prop :=
  pat.isPrefixOf (l.drop k) = true

instance (pat l : List Char) (k : Nat) : Decidable (occursAt pat l k) := by
  unfold occursAt; infer_instance

/-- Worker for `findSub`, carrying the index of the head of `l` in the
original list. -/
def findSubAux (pat : List Char) : List Char → Nat → Option Nat
  | [], i => if pat.isPrefixOf [] then some i else none
  | c :: rest, i =>
    if pat.isPrefixOf (c :: rest) then some i else findSubAux pat rest (i + 1)

/-- JS `str.indexOf(pat)`: index of the first occurrence of `pat`,
`none` for JS's `-1`. -/
def findSub (pat l : List Char) : Option Nat :=
  findSubAux pat l 0

/-- JS `Set.add` on an insertion-ordered set. -/
def addUnique (l : List String) (a : String) : List String :=
  if a ∈ l then l else l ++ [a]

/-- A grammar as produced by the compiler: `rules` is the JS object
`{A: [productions]}` as an insertion-ordered association list. -/
structure Grammar where
  /-- The source's `variables` field (`variables` is reserved in Lean). -/
  vars : List String
  terminals : List String
  startSymbol : String
  rules : List (String × List (List String))
deriving DecidableEq, Repr

/-- `if (!rules[left])` check of the compiler. -/
def rulesHas (m : List (String × List (List String))) (A : String) : Bool :=
  m.any (fun p => p.1 == A)

/-- `rules[left] = []` creation (key appended at the end, as a fresh JS
object property). -/
def rulesEnsure (m : List (String × List (List String))) (A : String) :
    List (String × List (List String)) :=
  if rulesHas m A then m else m ++ [(A, [])]

/-- `rules[left].push(prod)`. -/
def rulesPush (m : List (String × List (List String))) (A : String)
    (prod : List String) : List (String × List (List String)) :=
  match m with
  | [] => [(A, [prod])]
  | (B, ps) :: rest =>
    if B = A then (B, ps ++ [prod]) :: rest else (B, ps) :: rulesPush rest A prod

/-- Regex test `/^[a-z]$/` on a single character. -/
def isLowerAZ (c : Char) : Bool := 'a' ≤ c && c ≤ 'z'

/-- Regex test `/^[A-Z]$/` on a single character. -/
def isUpperAZ (c : Char) : Bool := 'A' ≤ c && c ≤ 'Z'

/-- Regex match `/^"([^"]+)"$/`: returns the quoted content when the
whole string is a quote-delimited nonempty run of non-quote characters. -/
def quotedContent (l : List Char) : Option (List Char) :=
  match l with
  | '"' :: rest =>
    match rest.reverse with
    | '"' :: midRev =>
      let mid := midRev.reverse
      if mid ≠ [] ∧ '"' ∉ mid then some mid else none
    | _ => none
  | _ => none

/-- Accumulator state of `parseGrammarFromText`'s line loop. -/
structure PGState where
  rules : List (String × List (List String))
  vars : List String
  terms : List String
  start : String
deriving DecidableEq, Repr

/-- One production alternative of a rule line (body of the
`right.split("|")...forEach` callback in `parseGrammarFromText`). -/
def processProd (left : String) (st : PGState) (prodRaw : List Char) : PGState :=
  let trimmed := trimL prodRaw
  match quotedContent trimmed with
  | some tokenChars =>
    let token : String := ⟨tokenChars⟩
    { st with terms := addUnique st.terms token,
              rules := rulesPush st.rules left [token] }
  | none =>
    let parts : List String := ((wsSplit trimmed).filter (· ≠ [])).map (⟨·⟩)
    match parts with
    | [sym] =>
      if sym.toList.length = 1 ∧ isLowerAZ (sym.toList.getD 0 ' ') then
        { st with terms := addUnique st.terms sym,
                  rules := rulesPush st.rules left [sym] }
      else if sym.toList.length = 2 ∧ isUpperAZ (sym.toList.getD 0 ' ')
              ∧ isUpperAZ (sym.toList.getD 1 ' ') then
        let B : String := ⟨[sym.toList.getD 0 ' ']⟩
        let C : String := ⟨[sym.toList.getD 1 ' ']⟩
        { st with vars := addUnique (addUnique st.vars B) C,
                  rules := rulesPush st.rules left [B, C] }
      else
        { st with vars := addUnique st.vars sym,
                  rules := rulesPush st.rules left [sym] }
    | [b, c] =>
      { st with vars := addUnique (addUnique st.vars b) c,
                rules := rulesPush st.rules left [b, c] }
    | _ => st

/-- The splitter index of a rule line: the first occurrence of `"->"`
when there is one, otherwise the first occurrence of `'→'`
(`arrowIndex` / `altArrowIndex` / `splitter` in the source). -/
def lineSplit (line : List Char) : Option Nat :=
  match findSub ['-', '>'] line with
  | some k => some k
  | none => findSub ['→'] line

/-- The left-hand side extracted from a line with splitter index `k`:
`line.slice(0, k).trim().replace(/\s+/g, "")`. -/
def leftOf (line : List Char) (k : Nat) : String :=
  ⟨(trimL (line.take k)).filter (fun c => !isWs c)⟩

/-- The right-hand side extracted from a line with splitter index `k`:
`line.slice(k + 2).trim()` (two units past the splitter, the length of
the ASCII arrow, even when the splitter is the one-character `'→'`). -/
def rightOf (line : List Char) (k : Nat) : List Char :=
  trimL (line.drop (k + 2))

/-- One iteration of `parseGrammarFromText`'s `lines.forEach` body. -/
def processLine (st : PGState) (idx : Nat) (line : List Char) : PGState :=
  match lineSplit line with
  | none => st
  | some splitter =>
    let left := leftOf line splitter
    let right := rightOf line splitter
    let st1 := if idx = 0 ∧ left ≠ "" then { st with start := left } else st
    let st2 := { st1 with rules := rulesEnsure st1.rules left,
                          vars := addUnique st1.vars left }
    ((splitChar '|' right).map trimL).foldl (processProd left) st2

/-- `lines.forEach((line, idx) => ...)`. -/
def processLines (st : PGState) (idx : Nat) : List (List Char) → PGState
  | [] => st
  | l :: rest => processLines (processLine st idx l) (idx + 1) rest

/-- The trimmed nonempty lines of the grammar text. -/
def linesOf (text : String) : List (List Char) :=
  ((splitChar '\n' text.toList).map trimL).filter (· ≠ [])

/-- `parseGrammarFromText` (source lines 80–149): split into trimmed
nonempty lines, fold the line processor, package the state. -/
def parseGrammarFromText (text : String) : Grammar :=
  let st := processLines ⟨[], [], [], "S"⟩ 0 (linesOf text)
  { vars := st.vars, terminals := st.terms,
    startSymbol := st.start, rules := st.rules }

/-- The `(variable, production)` pairs in the recognizers' iteration
order (`Object.keys(grammar.rules)` then `grammar.rules[A]`). -/
def rulePairs (g : Grammar) : List (String × List String) :=
  g.rules.flatMap (fun p => p.2.map (fun prod => (p.1, prod)))

/-- A backpointer record (`{type:'terminal',token}` or
`{type:'binary',left,right,split}`). -/
inductive BackRec where
  | terminal (token : String)
  | binary (left right : String) (split : Nat)
deriving DecidableEq, Repr

/-- `Map.get` on a backpointer cell, with the absent key read as the
empty record list (the only way the consumers distinguish it). -/
def getB (m : List (String × List BackRec)) (A : String) : List BackRec :=
  match m with
  | [] => []
  | (B, rs) :: rest => if B = A then rs else getB rest A

/-- The `if (!cell.has(A)) cell.set(A, []); cell.get(A).push(r)` idiom. -/
def backAdd (m : List (String × List BackRec)) (A : String) (r : BackRec) :
    List (String × List BackRec) :=
  match m with
  | [] => [(A, [r])]
  | (B, rs) :: rest =>
    if B = A then (B, rs ++ [r]) :: rest else (B, rs) :: backAdd rest A r

/-- Diagonal cell of `cykWithPointers` (source lines 163–174): the
variables `A` with a production `[tok]`, in rule order. -/
def diagCell (g : Grammar) (tok : String) : List String :=
  (rulePairs g).foldl
    (fun cell p =>
      match p.2 with
      | [t] => if t = tok then addUnique cell p.1 else cell
      | _ => cell)
    []

/-- Diagonal backpointer cell of `cykWithPointers`. -/
def diagBack (g : Grammar) (tok : String) : List (String × List BackRec) :=
  (rulePairs g).foldl
    (fun bk p =>
      match p.2 with
      | [t] => if t = tok then backAdd bk p.1 (BackRec.terminal tok) else bk
      | _ => bk)
    []

/-- One table cell of `cykWithPointers` as a function of the (smaller)
cells it reads: the diagonal base for `i = j`, the split/rule double
loop for `i < j`, and the untouched empty cell for `i > j`. -/
def cykCellO (g : Grammar) (tokens : List String)
    (tbl : Nat → Nat → List String) (i j : Nat) : List String :=
  if i = j then diagCell g (tokens.getD i "")
  else if i < j then
    (List.range' i (j - i)).foldl
      (fun cell k =>
        (rulePairs g).foldl
          (fun cell2 p =>
            match p.2 with
            | [B, C] =>
              if B ∈ tbl i k ∧ C ∈ tbl (k + 1) j then addUnique cell2 p.1
              else cell2
            | _ => cell2)
          cell)
      []
  else []

/-- Fuel-indexed table cell: `cykCellF f i j` is the final value of
`table[i][j]` once `f` is at least the span `j - i` (cells read by a
cell have strictly smaller span, so the fuel recursion matches the
source's span-increasing loop order). -/
def cykCellF (g : Grammar) (tokens : List String) : Nat → Nat → Nat → List String
  | 0 => fun i j => cykCellO g tokens (fun _ _ => []) i j
  | f + 1 => fun i j => cykCellO g tokens (cykCellF g tokens f) i j

/-- Final value of `table[i][j]` in `cykWithPointers`. -/
def cykCell (g : Grammar) (tokens : List String) (i j : Nat) : List String :=
  cykCellF g tokens (j - i) i j

/-- Backpointer cell of `cykWithPointers` as a function of the table
cells it consults (backpointer cells are written but never read during
recognition). -/
def cykBackO (g : Grammar) (tokens : List String)
    (tbl : Nat → Nat → List String) (i j : Nat) : List (String × List BackRec) :=
  if i = j then diagBack g (tokens.getD i "")
  else if i < j then
    (List.range' i (j - i)).foldl
      (fun bk k =>
        (rulePairs g).foldl
          (fun bk2 p =>
            match p.2 with
            | [B, C] =>
              if B ∈ tbl i k ∧ C ∈ tbl (k + 1) j then
                backAdd bk2 p.1 (BackRec.binary B C k)
              else bk2
            | _ => bk2)
          bk)
      []
  else []

/-- Final value of `back[i][j]` in `cykWithPointers`. -/
def cykBack (g : Grammar) (tokens : List String) (i j : Nat) :
    List (String × List BackRec) :=
  cykBackO g tokens (cykCell g tokens) i j

/-- Result record of `cykWithPointers`. -/
structure PointerResult where
  accepted : Bool
  table : List (List (List String))
  back : List (List (List (String × List BackRec)))
deriving DecidableEq, Repr

/-- `cykWithPointers` (source lines 152–198). -/
def cykWithPointers (tokens : List String) (g : Grammar) : PointerResult :=
  let n := tokens.length
  if n = 0 then ⟨false, [], []⟩
  else
    { accepted := decide (g.startSymbol ∈ cykCell g tokens 0 (n - 1)),
      table := (List.range n).map fun i =>
        (List.range n).map fun j => cykCell g tokens i j,
      back := (List.range n).map fun i =>
        (List.range n).map fun j => cykBack g tokens i j }

/-- A diagnostic step of `cykAlgorithm`, modelled structurally: the
source renders these as strings, carrying exactly this data. -/
inductive Step where
  | diag (i : Nat) (tok : String) (A : String)
  | bin (i j k : Nat) (A B C : String)
deriving DecidableEq, Repr

/-- Diagonal cell of `cykAlgorithm` (source lines 265–277; textually
the same loop as `cykWithPointers`' diagonal, without backpointers). -/
def diagCellA (g : Grammar) (tok : String) : List String :=
  (rulePairs g).foldl
    (fun cell p =>
      match p.2 with
      | [t] => if t = tok then addUnique cell p.1 else cell
      | _ => cell)
    []

/-- One table cell of `cykAlgorithm` as a function of the cells it
reads (source lines 279–302). -/
def cykCellAO (g : Grammar) (word : List String)
    (tbl : Nat → Nat → List String) (i j : Nat) : List String :=
  if i = j then diagCellA g (word.getD i "")
  else if i < j then
    (List.range' i (j - i)).foldl
      (fun cell k =>
        (rulePairs g).foldl
          (fun cell2 p =>
            match p.2 with
            | [B, C] =>
              if B ∈ tbl i k ∧ C ∈ tbl (k + 1) j then addUnique cell2 p.1
              else cell2
            | _ => cell2)
          cell)
      []
  else []

/-- Fuel-indexed table cell of `cykAlgorithm`. -/
def cykCellAF (g : Grammar) (word : List String) : Nat → Nat → Nat → List String
  | 0 => fun i j => cykCellAO g word (fun _ _ => []) i j
  | f + 1 => fun i j => cykCellAO g word (cykCellAF g word f) i j

/-- Final value of `table[i][j]` in `cykAlgorithm`. -/
def cykCellA (g : Grammar) (word : List String) (i j : Nat) : List String :=
  cykCellAF g word (j - i) i j

/-- The diagonal-phase steps of `cykAlgorithm`, in emission order. -/
def diagSteps (g : Grammar) (word : List String) : List Step :=
  (List.range word.length).flatMap fun i =>
    (rulePairs g).filterMap fun p =>
      match p.2 with
      | [t] =>
        if t = word.getD i "" then some (Step.diag i t p.1) else none
      | _ => none

/-- The binary-phase steps of `cykAlgorithm`, in emission order (the
table cells consulted have strictly smaller span and hold their final
values by the time they are read). -/
def binSteps (g : Grammar) (word : List String) : List Step :=
  let n := word.length
  (List.range' 2 (n - 1)).flatMap fun len =>
    (List.range (n - len + 1)).flatMap fun i =>
      let j := i + len - 1
      (List.range' i (j - i)).flatMap fun k =>
        (rulePairs g).filterMap fun p =>
          match p.2 with
          | [B, C] =>
            if B ∈ cykCellA g word i k ∧ C ∈ cykCellA g word (k + 1) j then
              some (Step.bin i j k p.1 B C)
            else none
          | _ => none

/-- Result record of `cykAlgorithm`. -/
structure TraceResult where
  accepted : Bool
  table : List (List (List String))
  steps : List Step
deriving DecidableEq, Repr

/-- `cykAlgorithm` (source lines 251–306). -/
def cykAlgorithm (word : List String) (g : Grammar) : TraceResult :=
  let n := word.length
  if n = 0 then ⟨false, [], []⟩
  else
    { accepted := decide (g.startSymbol ∈ cykCellA g word 0 (n - 1)),
      table := (List.range n).map fun i =>
        (List.range n).map fun j => cykCellA g word i j,
      steps := diagSteps g word ++ binSteps g word }

/-- A parse-tree node: the source's `{label}` (degenerate bare node),
`{label, child:{label:token}}` (terminal), or `{label, left, right}`. -/
inductive PTree where
  | bare (label : String)
  | leaf (label : String) (child : String)
  | node (label : String) (left right : PTree)
deriving DecidableEq, Repr

/-- Lookup of `back[i][j]` in the backpointer matrix. -/
def backGet (bk : List (List (List (String × List BackRec)))) (i j : Nat) :
    List (String × List BackRec) :=
  (bk.getD i []).getD j []

/-- The recursive `choose` of `buildParseTree`, with explicit fuel:
the source recursion strictly shrinks the span `j - i`, so any fuel of
at least `j - i + 1` reproduces it exactly. -/
def chooseF (bk : List (List (List (String × List BackRec)))) :
    Nat → String → Nat → Nat → PTree
  | 0, A, _, _ => PTree.bare A
  | fuel + 1, A, i, j =>
    match getB (backGet bk i j) A with
    | [] => PTree.bare A
    | r :: _ =>
      match r with
      | BackRec.terminal tok => PTree.leaf A tok
      | BackRec.binary B C k =>
        PTree.node A (chooseF bk fuel B i k) (chooseF bk fuel C (k + 1) j)

/-- `buildParseTree` (source lines 200–214). -/
def buildParseTree (g : Grammar) (tokens : List String)
    (bk : List (List (List (String × List BackRec)))) : Option PTree :=
  let n := tokens.length
  if n = 0 then none
  else if getB (backGet bk 0 (n - 1)) g.startSymbol = [] then none
  else some (chooseF bk n g.startSymbol 0 (n - 1))

/-- The terminal leaves of a parse tree, left to right. -/
def yieldOf : PTree → List String
  | PTree.bare _ => []
  | PTree.leaf _ tok => [tok]
  | PTree.node _ l r => yieldOf l ++ yieldOf r

/-- A tree avoiding the degenerate bare-node fallback everywhere. -/
def NoBare : PTree → Prop
  | PTree.bare _ => False
  | PTree.leaf _ _ => True
  | PTree.node _ l r => NoBare l ∧ NoBare r

/-- Tokenization of the Simulator tab's Generate Table handler
(source lines 637–648): character mode unless the raw string contains
a space character. -/
def simTokenize (s : String) : List String :=
  if ' ' ∈ s.toList then (wsSplit (trimL s.toList)).map (⟨·⟩)
  else (trimL s.toList).map (fun c => (⟨[c]⟩ : String))

/-- Tokenization of the PGC tab's Generate Table handler (source
lines 525–535): always `trim().split(/\s+/)`. -/
def pgcTokenize (s : String) : List String :=
  (wsSplit (trimL s.toList)).map (⟨·⟩)

/-- The whitespace-delimited words of a character list (the spec's
"sentence mode" notion): nonempty chunks between whitespace runs. -/
def wordsOf (l : List Char) : List (List Char) :=
  (wsSplit l).filter (· ≠ [])

/-- `(A, p)` is a production of the grammar, in the sense iterated by
the recognizers. -/
def prodMem (g : Grammar) (A : String) (p : List String) : Prop :=
  (A, p) ∈ rulePairs g

instance (g : Grammar) (A : String) (p : List String) :
    Decidable (prodMem g A p) := by
  unfold prodMem; infer_instance

/-- The grammar is in Chomsky Normal Form as the claims use the term:
every production is a single symbol (a terminal) or exactly two. -/
def IsCNF (g : Grammar) : Prop :=
  ∀ q ∈ rulePairs g, q.2.length = 1 ∨ q.2.length = 2

instance (g : Grammar) : Decidable (IsCNF g) := by
  unfold IsCNF; infer_instance

/-- Standard CNF derivation: `Derives g A w` means the variable `A`
derives the terminal string `w`. -/
inductive Derives (g : Grammar) : String → List String → Prop where
  | term (A t : String) : prodMem g A [t] → Derives g A [t]
  | bin (A B C : String) (u v : List String) :
      prodMem g A [B, C] → Derives g B u → Derives g C v →
      Derives g A (u ++ v)

/-- The token segment `tokens[i..j]` (inclusive). -/
def seg (tokens : List String) (i j : Nat) : List String :=
  (tokens.drop i).take (j - i + 1)

/-- The table cells read while computing cell `(i, j)`: the split loop
consults `(i, k)` and `(k + 1, j)` for each `k` in `[i, j)`; a diagonal
or sub-diagonal cell reads nothing. -/
def cellReads (i j : Nat) : List (Nat × Nat) :=
  if i < j then
    (List.range' i (j - i)).flatMap (fun k => [(i, k), (k + 1, j)])
  else []

/-- Lookup of `table[i][j]` in a table matrix. -/
def matGet (tbl : List (List (List String))) (i j : Nat) : List String :=
  (tbl.getD i []).getD j []

/-! ## Concrete scenario inputs (used by witnesses and scenario claims) -/

/-- Scenario A grammar text. -/
def scenAText : String := "S -> AB | BA\nA -> a\nB -> b"

/-- Scenario A compiled grammar. -/
def scenA : Grammar := parseGrammarFromText scenAText

/-- Scenario D grammar text (the PGC default NLP grammar). -/
def scenDText : String :=
  "S -> NP VP\nNP -> Det N\nVP -> V NP\nDet -> \"the\" | \"a\"\nN -> \"cat\" | \"dog\"\nV -> \"chased\""

/-- Scenario D compiled grammar. -/
def scenD : Grammar := parseGrammarFromText scenDText

/-- Scenario D tokenized sentence. -/
def scenDTokens : List String := pgcTokenize "the cat chased a dog"


/-! ## Abstractions used to reason about the backpointer folds -/

/-- A backpointer-fold step in selector form: push the selected record,
or leave the cell unchanged. -/
def backStep (sel : String × List String → Option BackRec)
    (bk : List (String × List BackRec)) (p : String × List String) :
    List (String × List BackRec) :=
  match sel p with
  | some r => backAdd bk p.1 r
  | none => bk

/-- Selector of the diagonal phase: a terminal record for each
production `[tok]`. -/
def diagSel (tok : String) (p : String × List String) : Option BackRec :=
  match p.2 with
  | [t] => if t = tok then some (BackRec.terminal tok) else none
  | _ => none

/-- Selector of the binary phase at split `k`: a binary record for each
production `[B, C]` supported by the two consulted cells. -/
def binSel (tbl : Nat → Nat → List String) (i j k : Nat)
    (p : String × List String) : Option BackRec :=
  match p.2 with
  | [B, C] =>
    if B ∈ tbl i k ∧ C ∈ tbl (k + 1) j then some (BackRec.binary B C k)
    else none
  | _ => none


end CykViz
namespace CykViz

/-! ## Basic lemmas about the set/fold primitives -/

theorem mem_addUnique (l : List String) (a b : String) :
    b ∈ addUnique l a ↔ b ∈ l ∨ b = a := by
  unfold addUnique
  by_cases h : a ∈ l
  · rw [if_pos h]
    constructor
    · exact Or.inl
    · rintro (hb | rfl)
      · exact hb
      · exact h
  · rw [if_neg h]
    simp

theorem foldl_congr_mem {α β : Type} (l : List β) (f f' : α → β → α) (a : α)
    (h : ∀ acc x, x ∈ l → f acc x = f' acc x) : l.foldl f a = l.foldl f' a := by
  induction l generalizing a with
  | nil => rfl
  | cons x xs ih =>
    rw [List.foldl_cons, List.foldl_cons, h a x (by simp)]
    exact ih _ (fun acc y hy => h acc y (by simp [hy]))

theorem foldl_id {α β : Type} (l : List β) (a : α) :
    l.foldl (fun acc _ => acc) a = a := by
  induction l <;> simp_all

/-- Membership after the diagonal-phase rule fold. -/
theorem mem_diagFold (tok : String) (l : List (String × List String))
    (acc : List String) (A : String) :
    A ∈ l.foldl
      (fun cell p =>
        match p.2 with
        | [t] => if t = tok then addUnique cell p.1 else cell
        | _ => cell) acc
    ↔ A ∈ acc ∨ ∃ p ∈ l, p.2 = [tok] ∧ p.1 = A := by
  induction l generalizing acc with
  | nil => simp
  | cons q l ih =>
    obtain ⟨B, ps⟩ := q
    rw [List.foldl_cons, ih]
    have hq : A ∈ (match ((B, ps) : String × List String).2 with
        | [t] => if t = tok then addUnique acc (B, ps).1 else acc
        | _ => acc) ↔ A ∈ acc ∨ (ps = [tok] ∧ B = A) := by
      match ps with
      | [] => simp
      | [t] =>
        by_cases ht : t = tok
        · subst ht; simp [mem_addUnique, eq_comm]
        · simp [ht]
      | t :: u :: v => simp
    rw [hq]
    constructor
    · rintro ((h | h) | h)
      · exact Or.inl h
      · exact Or.inr ⟨(B, ps), by simp, h.1, h.2⟩
      · obtain ⟨p, hp, h1, h2⟩ := h
        exact Or.inr ⟨p, by simp [hp], h1, h2⟩
    · rintro (h | ⟨p, hp, h1, h2⟩)
      · exact Or.inl (Or.inl h)
      · rcases List.mem_cons.mp hp with rfl | hp'
        · exact Or.inl (Or.inr ⟨h1, h2⟩)
        · exact Or.inr ⟨p, hp', h1, h2⟩

theorem mem_diagCell (g : Grammar) (tok A : String) :
    A ∈ diagCell g tok ↔ prodMem g A [tok] := by
  unfold diagCell prodMem
  rw [mem_diagFold]
  simp only [List.not_mem_nil, false_or]
  constructor
  · rintro ⟨⟨B, p⟩, hp, h1, h2⟩
    simp only at h1 h2
    subst h1; subst h2; exact hp
  · intro h; exact ⟨(A, [tok]), h, rfl, rfl⟩

end CykViz
namespace CykViz

/-! ## Characterizing the binary phase -/

/-- Membership after the rule fold of one split `k`. -/
theorem mem_binInnerFold (X Y : List String) (l : List (String × List String))
    (acc : List String) (A : String) :
    A ∈ l.foldl
      (fun cell2 p =>
        match p.2 with
        | [B, C] => if B ∈ X ∧ C ∈ Y then addUnique cell2 p.1 else cell2
        | _ => cell2) acc
    ↔ A ∈ acc ∨ ∃ B C, (A, [B, C]) ∈ l ∧ B ∈ X ∧ C ∈ Y := by
  induction l generalizing acc with
  | nil => simp
  | cons q l ih =>
    obtain ⟨D, ps⟩ := q
    rw [List.foldl_cons, ih]
    have hq : A ∈ (match ((D, ps) : String × List String).2 with
        | [B, C] => if B ∈ X ∧ C ∈ Y then addUnique acc (D, ps).1 else acc
        | _ => acc) ↔ A ∈ acc ∨ ∃ B C, ps = [B, C] ∧ B ∈ X ∧ C ∈ Y ∧ D = A := by
      match ps with
      | [] => simp
      | [t] => simp
      | [B, C] =>
        have hred : (match ((D, [B, C]) : String × List String).2 with
            | [B', C'] => if B' ∈ X ∧ C' ∈ Y then addUnique acc (D, [B, C]).1 else acc
            | _ => acc) = if B ∈ X ∧ C ∈ Y then addUnique acc D else acc := rfl
        rw [hred]
        by_cases hbc : B ∈ X ∧ C ∈ Y
        · rw [if_pos hbc]
          simp only [mem_addUnique]
          constructor
          · rintro (h | rfl)
            · exact Or.inl h
            · exact Or.inr ⟨B, C, rfl, hbc.1, hbc.2, rfl⟩
          · rintro (h | ⟨B', C', heq, h1, h2, rfl⟩)
            · exact Or.inl h
            · exact Or.inr rfl
        · rw [if_neg hbc]
          constructor
          · exact Or.inl
          · rintro (h | ⟨B', C', heq, h1, h2, rfl⟩)
            · exact h
            · cases heq
              exact absurd ⟨h1, h2⟩ hbc
      | t :: u :: v :: w => simp
    rw [hq]
    constructor
    · rintro ((h | ⟨B, C, rfl, h1, h2, rfl⟩) | ⟨B, C, hm, h1, h2⟩)
      · exact Or.inl h
      · exact Or.inr ⟨B, C, by simp, h1, h2⟩
      · exact Or.inr ⟨B, C, by simp [hm], h1, h2⟩
    · rintro (h | ⟨B, C, hm, h1, h2⟩)
      · exact Or.inl (Or.inl h)
      · rcases List.mem_cons.mp hm with heq | hm'
        · cases heq
          exact Or.inl (Or.inr ⟨B, C, rfl, h1, h2, rfl⟩)
        · exact Or.inr ⟨B, C, hm', h1, h2⟩

/-- Membership after the split loop. -/
theorem mem_binOuterFold (g : Grammar) (tbl : Nat → Nat → List String)
    (i j : Nat) (ks : List Nat) (acc : List String) (A : String) :
    A ∈ ks.foldl
      (fun cell k =>
        (rulePairs g).foldl
          (fun cell2 p =>
            match p.2 with
            | [B, C] =>
              if B ∈ tbl i k ∧ C ∈ tbl (k + 1) j then addUnique cell2 p.1
              else cell2
            | _ => cell2) cell) acc
    ↔ A ∈ acc ∨ ∃ k ∈ ks, ∃ B C, (A, [B, C]) ∈ rulePairs g ∧
        B ∈ tbl i k ∧ C ∈ tbl (k + 1) j := by
  induction ks generalizing acc with
  | nil => simp
  | cons k ks ih =>
    rw [List.foldl_cons, ih, mem_binInnerFold]
    constructor
    · rintro ((h | ⟨B, C, hm, h1, h2⟩) | ⟨k', hk', B, C, hm, h1, h2⟩)
      · exact Or.inl h
      · exact Or.inr ⟨k, by simp, B, C, hm, h1, h2⟩
      · exact Or.inr ⟨k', by simp [hk'], B, C, hm, h1, h2⟩
    · rintro (h | ⟨k', hk', B, C, hm, h1, h2⟩)
      · exact Or.inl (Or.inl h)
      · rcases List.mem_cons.mp hk' with rfl | hk''
        · exact Or.inl (Or.inr ⟨B, C, hm, h1, h2⟩)
        · exact Or.inr ⟨k', hk'', B, C, hm, h1, h2⟩

/-- Membership in one oracle-cell computation: the diagonal base on the
diagonal, the split/rule search above it, emptiness below it. -/
theorem mem_cykCellO (g : Grammar) (tokens : List String)
    (tbl : Nat → Nat → List String) (i j : Nat) (A : String) :
    A ∈ cykCellO g tokens tbl i j ↔
      (i = j ∧ prodMem g A [tokens.getD i ""]) ∨
      (i < j ∧ ∃ k, i ≤ k ∧ k < j ∧ ∃ B C, prodMem g A [B, C] ∧
        B ∈ tbl i k ∧ C ∈ tbl (k + 1) j) := by
  unfold cykCellO
  by_cases hij : i = j
  · subst hij
    simp [mem_diagCell]
  · rw [if_neg hij]
    by_cases hlt : i < j
    · rw [if_pos hlt, mem_binOuterFold]
      simp only [List.not_mem_nil, false_or, List.mem_range'_1, prodMem]
      constructor
      · rintro ⟨k, ⟨hk1, hk2⟩, B, C, hm, h1, h2⟩
        exact Or.inr ⟨hlt, k, hk1, by omega, B, C, hm, h1, h2⟩
      · rintro (⟨rfl, _⟩ | ⟨_, k, hk1, hk2, B, C, hm, h1, h2⟩)
        · exact absurd rfl hij
        · exact ⟨k, ⟨hk1, by omega⟩, B, C, hm, h1, h2⟩
    · rw [if_neg hlt]
      simp [hij, hlt]

/-- Every read recorded for a cell is strictly above the diagonal of a
strictly smaller span, inside the cell's own span. -/
theorem cellReads_spec (i j : Nat) (p : Nat × Nat) (hp : p ∈ cellReads i j) :
    i < j ∧ p.1 ≤ p.2 ∧ p.2 - p.1 < j - i ∧ i ≤ p.1 ∧ p.2 ≤ j := by
  unfold cellReads at hp
  by_cases hlt : i < j
  · rw [if_pos hlt] at hp
    simp only [List.mem_flatMap, List.mem_range'_1] at hp
    obtain ⟨k, ⟨hk1, hk2⟩, hmem⟩ := hp
    have hkj : k < j := by omega
    rcases List.mem_cons.mp hmem with rfl | h2
    · exact ⟨hlt, by omega, by omega, by omega, by omega⟩
    · rcases List.mem_cons.mp h2 with rfl | h3
      · exact ⟨hlt, by omega, by omega, by omega, by omega⟩
      · simp at h3
  · rw [if_neg hlt] at hp
    simp at hp

/-- The cell computation consults the oracle only at `cellReads i j`. -/
theorem cykCellO_congr (g : Grammar) (tokens : List String)
    (tbl tbl' : Nat → Nat → List String) (i j : Nat)
    (h : ∀ p ∈ cellReads i j, tbl p.1 p.2 = tbl' p.1 p.2) :
    cykCellO g tokens tbl i j = cykCellO g tokens tbl' i j := by
  unfold cykCellO
  by_cases hij : i = j
  · simp [hij]
  · rw [if_neg hij, if_neg hij]
    by_cases hlt : i < j
    · rw [if_pos hlt, if_pos hlt]
      apply foldl_congr_mem
      intro acc k hk
      have hk' : i ≤ k ∧ k < j := by
        simp only [List.mem_range'_1] at hk
        omega
      have e1 : tbl i k = tbl' i k := by
        apply h (i, k)
        unfold cellReads
        rw [if_pos hlt]
        simp only [List.mem_flatMap, List.mem_range'_1]
        exact ⟨k, ⟨hk'.1, by omega⟩, by simp⟩
      have e2 : tbl (k + 1) j = tbl' (k + 1) j := by
        apply h (k + 1, j)
        unfold cellReads
        rw [if_pos hlt]
        simp only [List.mem_flatMap, List.mem_range'_1]
        exact ⟨k, ⟨hk'.1, by omega⟩, by simp⟩
      rw [e1, e2]
    · rw [if_neg hlt, if_neg hlt]

/-- The diagonal cell does not depend on the fuel. -/
theorem cykCellF_diag (g : Grammar) (tokens : List String) (f i : Nat) :
    cykCellF g tokens f i i = diagCell g (tokens.getD i "") := by
  cases f <;> simp [cykCellF, cykCellO]

/-- Sub-diagonal cells are empty at every fuel. -/
theorem cykCellF_subdiag (g : Grammar) (tokens : List String) (f i j : Nat)
    (h : j < i) : cykCellF g tokens f i j = [] := by
  have h1 : ¬ i = j := by omega
  have h2 : ¬ i < j := by omega
  cases f <;> simp [cykCellF, cykCellO, h1, h2]

/-- Fuel stability: any two fuels at least the span give the same cell. -/
theorem cykCellF_stable (g : Grammar) (tokens : List String) :
    ∀ s i j f f', j - i = s → s ≤ f → s ≤ f' →
      cykCellF g tokens f i j = cykCellF g tokens f' i j := by
  intro s
  induction s using Nat.strong_induction_on with
  | _ s ih =>
    intro i j f f' hs hf hf'
    rcases Nat.lt_trichotomy i j with hlt | heq | hgt
    · have hs1 : 1 ≤ s := by omega
      obtain ⟨f1, rfl⟩ : ∃ f1, f = f1 + 1 := ⟨f - 1, by omega⟩
      obtain ⟨f2, rfl⟩ : ∃ f2, f' = f2 + 1 := ⟨f' - 1, by omega⟩
      show cykCellO g tokens (cykCellF g tokens f1) i j
         = cykCellO g tokens (cykCellF g tokens f2) i j
      apply cykCellO_congr
      intro p hp
      obtain ⟨_, hple, hspan, _, _⟩ := cellReads_spec i j p hp
      exact ih (p.2 - p.1) (by omega) p.1 p.2 f1 f2 rfl (by omega) (by omega)
    · subst heq
      rw [cykCellF_diag, cykCellF_diag]
    · rw [cykCellF_subdiag g tokens _ _ _ hgt, cykCellF_subdiag g tokens _ _ _ hgt]

/-- The final table cell is a fixed point of the oracle computation:
each cell is computed from the final values of the cells it reads. -/
theorem cykCell_fix (g : Grammar) (tokens : List String) (i j : Nat) :
    cykCell g tokens i j = cykCellO g tokens (cykCell g tokens) i j := by
  rcases Nat.lt_trichotomy i j with hlt | heq | hgt
  · have h1 : j - i = (j - i - 1) + 1 := by omega
    unfold cykCell
    rw [h1]
    show cykCellO g tokens (cykCellF g tokens (j - i - 1)) i j
       = cykCellO g tokens (fun i' j' => cykCellF g tokens (j' - i') i' j') i j
    apply cykCellO_congr
    intro p hp
    obtain ⟨_, hple, hspan, _, _⟩ := cellReads_spec i j p hp
    exact cykCellF_stable g tokens (p.2 - p.1) p.1 p.2 _ _ rfl (by omega) (by omega)
  · subst heq
    unfold cykCell
    simp only [Nat.sub_self]
    rw [cykCellF_diag]
    unfold cykCellO
    simp
  · unfold cykCell
    rw [cykCellF_subdiag g tokens _ _ _ hgt]
    unfold cykCellO
    have h1 : ¬ i = j := by omega
    have h2 : ¬ i < j := by omega
    simp [h1, h2]

/-- Sub-diagonal final cells are empty. -/
theorem cykCell_subdiag (g : Grammar) (tokens : List String) (i j : Nat)
    (h : j < i) : cykCell g tokens i j = [] :=
  cykCellF_subdiag g tokens _ i j h

/-- The final diagonal cell. -/
theorem cykCell_diag (g : Grammar) (tokens : List String) (i : Nat) :
    cykCell g tokens i i = diagCell g (tokens.getD i "") := by
  unfold cykCell
  simp only [Nat.sub_self]
  exact cykCellF_diag g tokens 0 i

/-- Full membership characterization of a final table cell. -/
theorem mem_cykCell (g : Grammar) (tokens : List String) (i j : Nat) (A : String) :
    A ∈ cykCell g tokens i j ↔
      (i = j ∧ prodMem g A [tokens.getD i ""]) ∨
      (i < j ∧ ∃ k, i ≤ k ∧ k < j ∧ ∃ B C, prodMem g A [B, C] ∧
        B ∈ cykCell g tokens i k ∧ C ∈ cykCell g tokens (k + 1) j) := by
  rw [cykCell_fix, mem_cykCellO]

end CykViz
namespace CykViz

/-! ## Token segments and derivations -/

theorem seg_length (tokens : List String) (i j : Nat) (hij : i ≤ j)
    (hj : j < tokens.length) : (seg tokens i j).length = j - i + 1 := by
  unfold seg
  rw [List.length_take, List.length_drop]
  omega

theorem seg_single (tokens : List String) (i : Nat) (hi : i < tokens.length) :
    seg tokens i i = [tokens.getD i ""] := by
  unfold seg
  rw [Nat.sub_self, List.drop_eq_getElem_cons hi, List.take_succ_cons,
    List.take_zero, List.getD_eq_getElem tokens "" hi]

theorem seg_append (tokens : List String) (i k j : Nat) (h1 : i ≤ k) (h2 : k < j) :
    seg tokens i k ++ seg tokens (k + 1) j = seg tokens i j := by
  unfold seg
  have ha : j - i + 1 = (k - i + 1) + (j - (k + 1) + 1) := by omega
  have hb : i + (k - i + 1) = k + 1 := by omega
  conv_rhs => rw [ha, List.take_add, List.drop_drop, hb]

theorem seg_split (tokens : List String) (i j : Nat) (u v : List String)
    (hij : i ≤ j) (hj : j < tokens.length) (hseg : seg tokens i j = u ++ v)
    (hu : u ≠ []) (hv : v ≠ []) :
    ∃ k, i ≤ k ∧ k < j ∧ u = seg tokens i k ∧ v = seg tokens (k + 1) j := by
  have hlen : u.length + v.length = j - i + 1 := by
    have := seg_length tokens i j hij hj
    rw [hseg, List.length_append] at this
    omega
  have hu1 : 1 ≤ u.length := List.length_pos.mpr hu
  have hv1 : 1 ≤ v.length := List.length_pos.mpr hv
  refine ⟨i + u.length - 1, by omega, by omega, ?_, ?_⟩
  · have e1 : seg tokens i (i + u.length - 1) = (seg tokens i j).take u.length := by
      unfold seg
      rw [List.take_take]
      congr 1
      omega
    have e2 : (seg tokens i j).take u.length = u := by
      rw [hseg, List.take_left]
    rw [e1, e2]
  · have f1 : seg tokens (i + u.length - 1 + 1) j = (seg tokens i j).drop u.length := by
      unfold seg
      rw [List.drop_take, List.drop_drop]
      congr 1
      · omega
      · congr 1
        omega
    have f2 : (seg tokens i j).drop u.length = v := by
      rw [hseg, List.drop_left]
    rw [f1, f2]

theorem seg_full (tokens : List String) (h : tokens ≠ []) :
    seg tokens 0 (tokens.length - 1) = tokens := by
  unfold seg
  rw [List.drop_zero]
  have h1 : tokens.length - 1 - 0 + 1 = tokens.length := by
    have := List.length_pos.mpr h
    omega
  rw [h1, List.take_length]

theorem Derives.ne_nil {g : Grammar} {A : String} {w : List String}
    (h : Derives g A w) : w ≠ [] := by
  induction h with
  | term A t _ => simp
  | bin A B C u v _ _ _ ihu _ => simp [ihu]

/-! ## Correctness of the CYK table -/

/-- Soundness: a variable in a table cell derives the cell's segment. -/
theorem cykCell_sound (g : Grammar) (tokens : List String) :
    ∀ s i j A, j - i = s → i ≤ j → j < tokens.length →
      A ∈ cykCell g tokens i j → Derives g A (seg tokens i j) := by
  intro s
  induction s using Nat.strong_induction_on with
  | _ s ih =>
    intro i j A hs hij hj hmem
    rw [mem_cykCell] at hmem
    rcases hmem with ⟨rfl, hp⟩ | ⟨hlt, k, hk1, hk2, B, C, hp, hB, hC⟩
    · rw [seg_single tokens i hj]
      exact Derives.term A _ hp
    · have hdB : Derives g B (seg tokens i k) :=
        ih (k - i) (by omega) i k B rfl (by omega) (by omega) hB
      have hdC : Derives g C (seg tokens (k + 1) j) :=
        ih (j - (k + 1)) (by omega) (k + 1) j C rfl (by omega) hj hC
      have := Derives.bin A B C _ _ hp hdB hdC
      rwa [seg_append tokens i k j hk1 hk2] at this

/-- Completeness: a variable deriving a segment is in its table cell. -/
theorem cykCell_complete (g : Grammar) (tokens : List String)
    {A : String} {w : List String} (h : Derives g A w) :
    ∀ i j, i ≤ j → j < tokens.length → seg tokens i j = w →
      A ∈ cykCell g tokens i j := by
  induction h with
  | term A t hp =>
    intro i j hij hj hseg
    have hlen : j - i + 1 = 1 := by
      have := seg_length tokens i j hij hj
      rw [hseg] at this
      simpa using this
    have hji : j = i := by omega
    subst hji
    rw [seg_single tokens j hj] at hseg
    have ht : tokens.getD j "" = t := by
      injection hseg
    rw [mem_cykCell]
    exact Or.inl ⟨rfl, ht ▸ hp⟩
  | bin A B C u v hp hdB hdC ihB ihC =>
    intro i j hij hj hseg
    obtain ⟨k, hk1, hk2, hu, hv⟩ :=
      seg_split tokens i j u v hij hj hseg hdB.ne_nil hdC.ne_nil
    rw [mem_cykCell]
    refine Or.inr ⟨by omega, k, hk1, hk2, B, C, hp, ?_, ?_⟩
    · exact ihB i k hk1 (by omega) hu.symm
    · exact ihC (k + 1) j (by omega) hj hv.symm

end CykViz
namespace CykViz

/-! ## The two recognizers compute the same table -/

theorem diagCellA_eq (g : Grammar) (tok : String) :
    diagCellA g tok = diagCell g tok := rfl

theorem cykCellAO_eq (g : Grammar) (w : List String)
    (tbl : Nat → Nat → List String) (i j : Nat) :
    cykCellAO g w tbl i j = cykCellO g w tbl i j := rfl

theorem cykCellAF_eq (g : Grammar) (w : List String) :
    ∀ f i j, cykCellAF g w f i j = cykCellF g w f i j := by
  intro f
  induction f with
  | zero => intro i j; rfl
  | succ f ih =>
    intro i j
    have hfun : cykCellAF g w f = cykCellF g w f :=
      funext fun i' => funext fun j' => ih i' j'
    show cykCellAO g w (cykCellAF g w f) i j = cykCellO g w (cykCellF g w f) i j
    rw [hfun, cykCellAO_eq]

theorem cykCellA_eq (g : Grammar) (w : List String) (i j : Nat) :
    cykCellA g w i j = cykCell g w i j := by
  unfold cykCellA cykCell
  rw [cykCellAF_eq]

/-! ## Lookup in the result matrices -/

theorem matGet_matrix (f : Nat → Nat → List String) (n i j : Nat) :
    matGet ((List.range n).map fun i => (List.range n).map fun j => f i j) i j
    = if i < n ∧ j < n then f i j else [] := by
  unfold matGet
  by_cases hi : i < n
  · have hrow : ((List.range n).map fun i =>
        (List.range n).map fun j => f i j).getD i []
        = (List.range n).map fun j => f i j := by
      rw [List.getD_eq_getElem _ _ (by simpa using hi)]
      simp
    rw [hrow]
    by_cases hj : j < n
    · rw [List.getD_eq_getElem _ _ (by simpa using hj), if_pos ⟨hi, hj⟩]
      simp
    · rw [List.getD_eq_default _ _ (by simpa using Nat.le_of_not_lt hj),
        if_neg (by tauto)]
  · have houter : ((List.range n).map fun i =>
        (List.range n).map fun j => f i j).getD i [] = [] := by
      apply List.getD_eq_default
      simpa using Nat.le_of_not_lt hi
    rw [houter, if_neg (by tauto)]
    rfl

theorem cykWithPointers_table (g : Grammar) (tokens : List String)
    (h : tokens ≠ []) :
    (cykWithPointers tokens g).table
    = (List.range tokens.length).map fun i =>
        (List.range tokens.length).map fun j => cykCell g tokens i j := by
  unfold cykWithPointers
  rw [if_neg (by simpa using h)]

theorem cykWithPointers_back (g : Grammar) (tokens : List String)
    (h : tokens ≠ []) :
    (cykWithPointers tokens g).back
    = (List.range tokens.length).map fun i =>
        (List.range tokens.length).map fun j => cykBack g tokens i j := by
  unfold cykWithPointers
  rw [if_neg (by simpa using h)]

theorem cykWithPointers_accepted (g : Grammar) (tokens : List String)
    (h : tokens ≠ []) :
    (cykWithPointers tokens g).accepted
    = decide (g.startSymbol ∈ cykCell g tokens 0 (tokens.length - 1)) := by
  unfold cykWithPointers
  rw [if_neg (by simpa using h)]

theorem cykAlgorithm_accepted (g : Grammar) (word : List String)
    (h : word ≠ []) :
    (cykAlgorithm word g).accepted
    = decide (g.startSymbol ∈ cykCellA g word 0 (word.length - 1)) := by
  unfold cykAlgorithm
  rw [if_neg (by simpa using h)]

theorem cykAlgorithm_table (g : Grammar) (word : List String)
    (h : word ≠ []) :
    (cykAlgorithm word g).table
    = (List.range word.length).map fun i =>
        (List.range word.length).map fun j => cykCellA g word i j := by
  unfold cykAlgorithm
  rw [if_neg (by simpa using h)]

end CykViz
namespace CykViz

/-! ## Claim C1: recognizer correctness -/

/-- C1: for every CNF grammar (every production one terminal or exactly
two variables) and every token sequence, `cykWithPointers` accepts
exactly when the start symbol derives the sequence under standard CNF
derivation semantics. -/
theorem c1_recognizer_correct (g : Grammar) (tokens : List String)
    (hcnf : IsCNF g) :
    (cykWithPointers tokens g).accepted = true ↔
      Derives g g.startSymbol tokens := by
  by_cases hn : tokens = []
  · subst hn
    refine ⟨fun h => absurd h (by simp [cykWithPointers]), fun h => absurd rfl h.ne_nil⟩
  · rw [cykWithPointers_accepted g tokens hn, decide_eq_true_eq]
    have hlen : tokens.length - 1 < tokens.length := by
      have := List.length_pos.mpr hn
      omega
    constructor
    · intro hmem
      have hs := cykCell_sound g tokens (tokens.length - 1) 0 (tokens.length - 1)
        g.startSymbol (by omega) (by omega) hlen hmem
      rwa [seg_full tokens hn] at hs
    · intro hd
      exact cykCell_complete g tokens hd 0 (tokens.length - 1) (by omega) hlen
        (seg_full tokens hn)

/-- Witness for C1 at scenario A with input `ab`. -/
theorem c1_recognizer_correct_witness :
    IsCNF scenA ∧
    ((cykWithPointers ["a", "b"] scenA).accepted = true ↔
      Derives scenA scenA.startSymbol ["a", "b"]) :=
  ⟨by decide, c1_recognizer_correct scenA ["a", "b"] (by decide)⟩

/-! ## Claim C2: the trace recognizer agrees with the pointer recognizer -/

/-- C2: on every grammar and token sequence, `cykAlgorithm` and
`cykWithPointers` return the same acceptance flag and element-wise
equal tables. -/
theorem c2_trace_equiv (g : Grammar) (word : List String) :
    (cykAlgorithm word g).accepted = (cykWithPointers word g).accepted ∧
    (cykAlgorithm word g).table = (cykWithPointers word g).table := by
  by_cases hn : word = []
  · subst hn
    exact ⟨rfl, rfl⟩
  · constructor
    · rw [cykAlgorithm_accepted g word hn, cykWithPointers_accepted g word hn,
        cykCellA_eq]
    · rw [cykAlgorithm_table g word hn, cykWithPointers_table g word hn]
      simp only [cykCellA_eq]

/-! ## Claim C6: determinism -/

/-- C6: two recognizer calls on identical inputs return equal results
(acceptance, tables, backpointers) and equal reconstructed trees. -/
theorem c6_deterministic (g g' : Grammar) (t t' : List String)
    (hg : g = g') (ht : t = t') :
    cykWithPointers t g = cykWithPointers t' g' ∧
    buildParseTree g t (cykWithPointers t g).back
      = buildParseTree g' t' (cykWithPointers t' g').back := by
  subst hg
  subst ht
  exact ⟨rfl, rfl⟩

/-- Witness for C6 at scenario A with input `ab`. -/
theorem c6_deterministic_witness :
    cykWithPointers ["a", "b"] scenA = cykWithPointers ["a", "b"] scenA ∧
    buildParseTree scenA ["a", "b"] (cykWithPointers ["a", "b"] scenA).back
      = buildParseTree scenA ["a", "b"] (cykWithPointers ["a", "b"] scenA).back :=
  c6_deterministic scenA scenA ["a", "b"] ["a", "b"] rfl rfl

/-! ## Claim C7: triangular invariant -/

/-- C7: sub-diagonal cells stay empty in both recognizers' final
tables; the computation of a cell depends only on its recorded reads;
every recorded read (and the acceptance read `(0, n-1)`) lies on or
above the diagonal, inside the cell's span. -/
theorem c7_triangular (g : Grammar) (tokens : List String) (i j : Nat) :
    (j < i → matGet (cykWithPointers tokens g).table i j = [] ∧
             matGet (cykAlgorithm tokens g).table i j = []) ∧
    (∀ tbl tbl' : Nat → Nat → List String,
      (∀ p ∈ cellReads i j, tbl p.1 p.2 = tbl' p.1 p.2) →
      cykCellO g tokens tbl i j = cykCellO g tokens tbl' i j) ∧
    (∀ p ∈ cellReads i j, i ≤ p.1 ∧ p.1 ≤ p.2 ∧ p.2 ≤ j) ∧
    (cykCell g tokens i j = cykCellO g tokens (cykCell g tokens) i j) ∧
    (tokens ≠ [] → (cykWithPointers tokens g).accepted
        = decide (g.startSymbol ∈ cykCell g tokens 0 (tokens.length - 1))) := by
  refine ⟨?_, fun tbl tbl' h => cykCellO_congr g tokens tbl tbl' i j h, ?_,
    cykCell_fix g tokens i j, cykWithPointers_accepted g tokens⟩
  · intro hji
    constructor
    · by_cases hn : tokens = []
      · subst hn
        simp [cykWithPointers, matGet]
      · rw [cykWithPointers_table g tokens hn, matGet_matrix]
        split
        · exact cykCell_subdiag g tokens i j hji
        · rfl
    · by_cases hn : tokens = []
      · subst hn
        simp [cykAlgorithm, matGet]
      · rw [cykAlgorithm_table g tokens hn, matGet_matrix]
        split
        · rw [cykCellA_eq]
          exact cykCell_subdiag g tokens i j hji
        · rfl
  · intro p hp
    obtain ⟨_, h1, _, h2, h3⟩ := cellReads_spec i j p hp
    exact ⟨h2, h1, h3⟩

/-- Witness for C7 at scenario A with input `ab`. -/
theorem c7_triangular_witness :
    (matGet (cykWithPointers ["a", "b"] scenA).table 1 0 = [] ∧
     matGet (cykAlgorithm ["a", "b"] scenA).table 1 0 = []) ∧
    (∀ p ∈ cellReads 0 1, (0 : Nat) ≤ p.1 ∧ p.1 ≤ p.2 ∧ p.2 ≤ 1) ∧
    (cykWithPointers ["a", "b"] scenA).accepted
      = decide (scenA.startSymbol ∈ cykCell scenA ["a", "b"] 0 1) :=
  ⟨(c7_triangular scenA ["a", "b"] 1 0).1 (by decide),
   (c7_triangular scenA ["a", "b"] 0 1).2.2.1,
   (c7_triangular scenA ["a", "b"] 0 1).2.2.2.2 (by decide)⟩

end CykViz
namespace CykViz

/-! ## Claim C8: totality and empty-input behavior -/

theorem rulePairs_nil (g : Grammar) (h : g.rules = []) : rulePairs g = [] := by
  unfold rulePairs
  rw [h]
  rfl

theorem cykCellO_empty_rules (g : Grammar) (t : List String)
    (h : rulePairs g = []) (tbl : Nat → Nat → List String) (i j : Nat) :
    cykCellO g t tbl i j = [] := by
  unfold cykCellO
  by_cases hij : i = j
  · rw [if_pos hij]
    unfold diagCell
    rw [h]
    rfl
  · rw [if_neg hij]
    by_cases hlt : i < j
    · rw [if_pos hlt, h]
      simp only [List.foldl_nil]
      exact foldl_id _ _
    · rw [if_neg hlt]

theorem cykCellF_empty_rules (g : Grammar) (t : List String)
    (h : rulePairs g = []) (f i j : Nat) : cykCellF g t f i j = [] := by
  cases f with
  | zero =>
    show cykCellO g t (fun _ _ => []) i j = []
    exact cykCellO_empty_rules g t h _ i j
  | succ f =>
    show cykCellO g t (cykCellF g t f) i j = []
    exact cykCellO_empty_rules g t h _ i j

theorem processLines_skip (ls : List (List Char))
    (h : ∀ l ∈ ls, lineSplit l = none) :
    ∀ st idx, processLines st idx ls = st := by
  induction ls with
  | nil => intro st idx; rfl
  | cons l rest ih =>
    intro st idx
    show processLines (processLine st idx l) (idx + 1) rest = st
    have hl : processLine st idx l = st := by
      unfold processLine
      rw [h l (by simp)]
    rw [hl]
    exact ih (fun l' hl' => h l' (by simp [hl'])) st (idx + 1)

/-- C8: recognition is total (a total function in this embedding) and
degrades gracefully: the empty token sequence returns `accepted =
false` with empty structures in both recognizers, an empty rule set
yields `accepted = false` on any input, and a grammar text in which no
line carries an arrow compiles to an empty rule set that likewise
yields `accepted = false`. -/
theorem c8_graceful (g : Grammar) (tokens : List String) (text : String) :
    (tokens = [] →
      cykWithPointers tokens g = ⟨false, [], []⟩ ∧
      cykAlgorithm tokens g = ⟨false, [], []⟩) ∧
    (g.rules = [] →
      (cykWithPointers tokens g).accepted = false ∧
      (cykAlgorithm tokens g).accepted = false) ∧
    ((∀ l ∈ linesOf text, lineSplit l = none) →
      (parseGrammarFromText text).rules = [] ∧
      (cykWithPointers tokens (parseGrammarFromText text)).accepted = false) := by
  have hrules : ∀ g' : Grammar, g'.rules = [] →
      (cykWithPointers tokens g').accepted = false ∧
      (cykAlgorithm tokens g').accepted = false := by
    intro g' hr
    have hrp := rulePairs_nil g' hr
    by_cases hn : tokens = []
    · subst hn
      exact ⟨rfl, rfl⟩
    · constructor
      · rw [cykWithPointers_accepted g' tokens hn]
        unfold cykCell
        rw [cykCellF_empty_rules g' tokens hrp]
        simp
      · rw [cykAlgorithm_accepted g' tokens hn, cykCellA_eq]
        unfold cykCell
        rw [cykCellF_empty_rules g' tokens hrp]
        simp
  refine ⟨?_, hrules g, ?_⟩
  · rintro rfl
    exact ⟨rfl, rfl⟩
  · intro hskip
    have hempty : (parseGrammarFromText text).rules = [] := by
      unfold parseGrammarFromText
      rw [processLines_skip (linesOf text) hskip]
    exact ⟨hempty, (hrules _ hempty).1⟩

/-- Witness for C8: the empty input, an empty grammar on input `a`,
and the arrow-free grammar text `hello` on input `a`. -/
theorem c8_graceful_witness :
    (cykWithPointers ([] : List String) scenA = ⟨false, [], []⟩ ∧
     cykAlgorithm ([] : List String) scenA = ⟨false, [], []⟩) ∧
    ((cykWithPointers ["a"] ⟨[], [], "S", []⟩).accepted = false ∧
     (cykAlgorithm ["a"] ⟨[], [], "S", []⟩).accepted = false) ∧
    ((parseGrammarFromText "hello").rules = [] ∧
     (cykWithPointers ["a"] (parseGrammarFromText "hello")).accepted = false) :=
  ⟨(c8_graceful scenA [] "hello").1 rfl,
   (c8_graceful ⟨[], [], "S", []⟩ ["a"] "hello").2.1 rfl,
   (c8_graceful scenA ["a"] "hello").2.2 (by decide)⟩

end CykViz
namespace CykViz

/-! ## The backpointer cells, characterized -/

theorem getB_backAdd_self (m : List (String × List BackRec)) (A : String)
    (r : BackRec) : getB (backAdd m A r) A = getB m A ++ [r] := by
  induction m with
  | nil => simp [backAdd, getB]
  | cons q rest ih =>
    obtain ⟨B, rs⟩ := q
    by_cases hBA : B = A
    · subst hBA
      simp [backAdd, getB]
    · simp [backAdd, getB, hBA, ih]

theorem getB_backAdd_ne (m : List (String × List BackRec)) (A B : String)
    (r : BackRec) (h : A ≠ B) : getB (backAdd m A r) B = getB m B := by
  induction m with
  | nil => simp [backAdd, getB, h]
  | cons q rest ih =>
    obtain ⟨D, rs⟩ := q
    by_cases hDA : D = A
    · subst hDA
      simp [backAdd, getB, h]
    · by_cases hDB : D = B
      · subst hDB
        simp [backAdd, getB, hDA]
      · simp [backAdd, getB, hDA, hDB, ih]

/-- What a selector-form fold appends to a key's record list. -/
theorem getB_foldl_backStep (sel : String × List String → Option BackRec)
    (l : List (String × List String)) (acc : List (String × List BackRec))
    (A : String) :
    getB (l.foldl (backStep sel) acc) A
    = getB acc A ++ l.filterMap (fun p => if p.1 = A then sel p else none) := by
  induction l generalizing acc with
  | nil => simp
  | cons q l ih =>
    rw [List.foldl_cons, ih]
    cases hsel : sel q with
    | none =>
      have hstep : backStep sel acc q = acc := by
        unfold backStep
        rw [hsel]
      rw [hstep, List.filterMap_cons]
      by_cases hq : q.1 = A
      · simp [hq, hsel]
      · simp [hq]
    | some r =>
      have hstep : backStep sel acc q = backAdd acc q.1 r := by
        unfold backStep
        rw [hsel]
      rw [hstep, List.filterMap_cons]
      by_cases hq : q.1 = A
      · subst hq
        rw [getB_backAdd_self]
        simp [hsel]
      · rw [getB_backAdd_ne acc q.1 A r (fun h => hq h)]
        simp [hq]

/-- Same, for the nested split-loop fold. -/
theorem getB_foldl_backStep_nested (g : Grammar)
    (sel : Nat → String × List String → Option BackRec)
    (ks : List Nat) (acc : List (String × List BackRec)) (A : String) :
    getB (ks.foldl (fun bk k => (rulePairs g).foldl (backStep (sel k)) bk) acc) A
    = getB acc A ++ ks.flatMap (fun k =>
        (rulePairs g).filterMap (fun p => if p.1 = A then sel k p else none)) := by
  induction ks generalizing acc with
  | nil => simp
  | cons k ks ih =>
    rw [List.foldl_cons, ih, getB_foldl_backStep]
    simp [List.append_assoc]

/-- The diagonal backpointer fold is the selector-form fold. -/
theorem diagBack_eq (g : Grammar) (tok : String) :
    diagBack g tok = (rulePairs g).foldl (backStep (diagSel tok)) [] := by
  unfold diagBack
  apply foldl_congr_mem
  intro acc p _
  obtain ⟨D, ps⟩ := p
  unfold backStep diagSel
  match ps with
  | [] => rfl
  | [t] =>
    by_cases ht : t = tok
    · simp [ht]
    · simp [ht]
  | t :: u :: v => rfl

/-- The binary backpointer computation is the nested selector-form fold. -/
theorem cykBackO_eq (g : Grammar) (tokens : List String)
    (tbl : Nat → Nat → List String) (i j : Nat) (hlt : i < j) :
    cykBackO g tokens tbl i j
    = (List.range' i (j - i)).foldl
        (fun bk k => (rulePairs g).foldl (backStep (binSel tbl i j k)) bk) [] := by
  unfold cykBackO
  rw [if_neg (by omega), if_pos hlt]
  apply foldl_congr_mem
  intro acc k _
  apply foldl_congr_mem
  intro acc2 p _
  obtain ⟨D, ps⟩ := p
  unfold backStep binSel
  match ps with
  | [] => rfl
  | [t] => rfl
  | [B, C] =>
    by_cases hbc : B ∈ tbl i k ∧ C ∈ tbl (k + 1) j
    · simp [hbc]
    · simp [hbc]
  | t :: u :: v :: w => rfl

/-- Records of a diagonal backpointer cell. -/
theorem getB_diagBack (g : Grammar) (tok A : String) :
    getB (diagBack g tok) A
    = (rulePairs g).filterMap
        (fun p => if p.1 = A then diagSel tok p else none) := by
  rw [diagBack_eq, getB_foldl_backStep]
  rfl

/-- Every record of a diagonal cell is the terminal record. -/
theorem getB_diagBack_shape (g : Grammar) (tok A : String) (r : BackRec)
    (hr : r ∈ getB (diagBack g tok) A) : r = BackRec.terminal tok := by
  rw [getB_diagBack, List.mem_filterMap] at hr
  obtain ⟨⟨p1, p2⟩, _, hp⟩ := hr
  by_cases hpa : p1 = A
  · rw [if_pos (by simpa using hpa)] at hp
    rcases p2 with _ | ⟨t, _ | ⟨u, rest⟩⟩ <;> simp [diagSel] at hp
    exact hp.2.symm
  · rw [if_neg (by simpa using hpa)] at hp
    cases hp

/-- A diagonal backpointer list is nonempty exactly for the variables
having the matching terminal production. -/
theorem getB_diagBack_ne_nil (g : Grammar) (tok A : String) :
    getB (diagBack g tok) A ≠ [] ↔ prodMem g A [tok] := by
  rw [getB_diagBack]
  constructor
  · intro hne
    obtain ⟨r, hr⟩ := List.exists_mem_of_ne_nil _ hne
    rw [List.mem_filterMap] at hr
    obtain ⟨⟨p1, p2⟩, hpl, hp⟩ := hr
    by_cases hpa : p1 = A
    · rw [if_pos (by simpa using hpa)] at hp
      rcases p2 with _ | ⟨t, _ | ⟨u, rest⟩⟩ <;> simp [diagSel] at hp
      unfold prodMem
      subst hpa
      rwa [← hp.1]
    · rw [if_neg (by simpa using hpa)] at hp
      cases hp
  · intro hmem hnil
    rw [List.filterMap_eq_nil_iff] at hnil
    have := hnil (A, [tok]) hmem
    simp [diagSel] at this

/-- Records of a binary backpointer cell. -/
theorem getB_cykBackO (g : Grammar) (tokens : List String)
    (tbl : Nat → Nat → List String) (i j : Nat) (hlt : i < j) (A : String) :
    getB (cykBackO g tokens tbl i j) A
    = (List.range' i (j - i)).flatMap (fun k =>
        (rulePairs g).filterMap
          (fun p => if p.1 = A then binSel tbl i j k p else none)) := by
  rw [cykBackO_eq g tokens tbl i j hlt, getB_foldl_backStep_nested]
  rfl

/-- Every record of a binary cell is a well-formed binary record backed
by the two consulted table cells. -/
theorem getB_cykBackO_shape (g : Grammar) (tokens : List String)
    (tbl : Nat → Nat → List String) (i j : Nat) (hlt : i < j) (A : String)
    (r : BackRec) (hr : r ∈ getB (cykBackO g tokens tbl i j) A) :
    ∃ B C k, r = BackRec.binary B C k ∧ i ≤ k ∧ k < j ∧
      prodMem g A [B, C] ∧ B ∈ tbl i k ∧ C ∈ tbl (k + 1) j := by
  rw [getB_cykBackO g tokens tbl i j hlt, List.mem_flatMap] at hr
  obtain ⟨k, hk, hr⟩ := hr
  rw [List.mem_range'_1] at hk
  rw [List.mem_filterMap] at hr
  obtain ⟨⟨p1, p2⟩, hpl, hp⟩ := hr
  by_cases hpa : p1 = A
  · rw [if_pos (by simpa using hpa)] at hp
    rcases p2 with _ | ⟨B, _ | ⟨C, _ | ⟨u, rest⟩⟩⟩ <;> simp [binSel] at hp
    refine ⟨B, C, k, hp.2.symm, by omega, by omega, ?_, hp.1.1, hp.1.2⟩
    unfold prodMem
    subst hpa
    exact hpl
  · rw [if_neg (by simpa using hpa)] at hp
    cases hp

/-- A binary backpointer list is nonempty exactly for the variables of
the corresponding table cell computation. -/
theorem getB_cykBackO_ne_nil (g : Grammar) (tokens : List String)
    (tbl : Nat → Nat → List String) (i j : Nat) (hlt : i < j) (A : String) :
    getB (cykBackO g tokens tbl i j) A ≠ [] ↔
      ∃ k, i ≤ k ∧ k < j ∧ ∃ B C, prodMem g A [B, C] ∧
        B ∈ tbl i k ∧ C ∈ tbl (k + 1) j := by
  rw [getB_cykBackO g tokens tbl i j hlt]
  constructor
  · intro hne
    obtain ⟨r, hr⟩ := List.exists_mem_of_ne_nil _ hne
    rw [List.mem_flatMap] at hr
    obtain ⟨k, hk, hr⟩ := hr
    rw [List.mem_range'_1] at hk
    rw [List.mem_filterMap] at hr
    obtain ⟨⟨p1, p2⟩, hpl, hp⟩ := hr
    by_cases hpa : p1 = A
    · rw [if_pos (by simpa using hpa)] at hp
      rcases p2 with _ | ⟨B, _ | ⟨C, _ | ⟨u, rest⟩⟩⟩ <;> simp [binSel] at hp
      refine ⟨k, by omega, by omega, B, C, ?_, hp.1.1, hp.1.2⟩
      unfold prodMem
      subst hpa
      exact hpl
    · rw [if_neg (by simpa using hpa)] at hp
      cases hp
  · rintro ⟨k, hk1, hk2, B, C, hm, hB, hC⟩
    intro hnil
    rw [List.flatMap_eq_nil_iff] at hnil
    have hknil := hnil k (by rw [List.mem_range'_1]; omega)
    rw [List.filterMap_eq_nil_iff] at hknil
    have := hknil (A, [B, C]) hm
    simp [binSel, hB, hC] at this

/-- Nonemptiness of a final backpointer list coincides with membership
in the final table cell, and its records are valid. -/
theorem getB_cykBack_ne_nil (g : Grammar) (tokens : List String)
    (i j : Nat) (hij : i ≤ j) (A : String) :
    getB (cykBack g tokens i j) A ≠ [] ↔ A ∈ cykCell g tokens i j := by
  rcases Nat.lt_or_ge i j with hlt | hge
  · unfold cykBack
    rw [getB_cykBackO_ne_nil g tokens _ i j hlt, mem_cykCell]
    constructor
    · intro h
      exact Or.inr ⟨hlt, h⟩
    · rintro (⟨rfl, _⟩ | ⟨_, h⟩)
      · omega
      · exact h
  · have hii : i = j := by omega
    subst hii
    have hdiag : cykBack g tokens i i = diagBack g (tokens.getD i "") := by
      unfold cykBack cykBackO
      rw [if_pos rfl]
    rw [hdiag, getB_diagBack_ne_nil, cykCell_diag, mem_diagCell]

end CykViz
namespace CykViz

/-! ## Claim C10: tree reconstruction -/

theorem cykBack_diag (g : Grammar) (tokens : List String) (i : Nat) :
    cykBack g tokens i i = diagBack g (tokens.getD i "") := by
  unfold cykBack cykBackO
  rw [if_pos rfl]

theorem backGet_matrix (f : Nat → Nat → List (String × List BackRec))
    (n i j : Nat) :
    backGet ((List.range n).map fun i => (List.range n).map fun j => f i j) i j
    = if i < n ∧ j < n then f i j else [] := by
  unfold backGet
  by_cases hi : i < n
  · have hrow : ((List.range n).map fun i =>
        (List.range n).map fun j => f i j).getD i []
        = (List.range n).map fun j => f i j := by
      rw [List.getD_eq_getElem _ _ (by simpa using hi)]
      simp
    rw [hrow]
    by_cases hj : j < n
    · rw [List.getD_eq_getElem _ _ (by simpa using hj), if_pos ⟨hi, hj⟩]
      simp
    · rw [List.getD_eq_default _ _ (by simpa using Nat.le_of_not_lt hj),
        if_neg (by tauto)]
  · have houter : ((List.range n).map fun i =>
        (List.range n).map fun j => f i j).getD i [] = [] := by
      apply List.getD_eq_default
      simpa using Nat.le_of_not_lt hi
    rw [houter, if_neg (by tauto)]
    rfl

/-- The reconstruction recursion, given enough fuel, produces a tree
with no bare fallback node whose leaves spell the cell's segment. -/
theorem chooseF_ok (g : Grammar) (tokens : List String)
    (bk : List (List (List (String × List BackRec))))
    (hbk : ∀ i j, i < tokens.length → j < tokens.length →
      backGet bk i j = cykBack g tokens i j) :
    ∀ s i j A fuel, j - i = s → i ≤ j → j < tokens.length → s < fuel →
      A ∈ cykCell g tokens i j →
      NoBare (chooseF bk fuel A i j) ∧
      yieldOf (chooseF bk fuel A i j) = seg tokens i j := by
  intro s
  induction s using Nat.strong_induction_on with
  | _ s ih =>
    intro i j A fuel hs hij hj hfuel hmem
    obtain ⟨f, rfl⟩ : ∃ f, fuel = f + 1 := ⟨fuel - 1, by omega⟩
    have hstep : chooseF bk (f + 1) A i j
        = (match getB (backGet bk i j) A with
          | [] => PTree.bare A
          | r :: _ =>
            match r with
            | BackRec.terminal tok => PTree.leaf A tok
            | BackRec.binary B C k =>
              PTree.node A (chooseF bk f B i k) (chooseF bk f C (k + 1) j)) := rfl
    rw [hbk i j (by omega) hj] at hstep
    rcases Nat.lt_or_ge i j with hlt | hge
    · have hne : getB (cykBack g tokens i j) A ≠ [] := by
        rw [getB_cykBack_ne_nil g tokens i j hij]
        exact hmem
      rcases hgb : getB (cykBack g tokens i j) A with _ | ⟨r, rest⟩
      · exact absurd hgb hne
      · have hrmem : r ∈ getB (cykBack g tokens i j) A := by
          rw [hgb]
          simp
        have hshape := getB_cykBackO_shape g tokens (cykCell g tokens) i j hlt A r hrmem
        obtain ⟨B, C, k, rfl, hk1, hk2, _, hB, hC⟩ := hshape
        rw [hgb] at hstep
        have ihB := ih (k - i) (by omega) i k B f rfl (by omega) (by omega) (by omega) hB
        have ihC := ih (j - (k + 1)) (by omega) (k + 1) j C f rfl (by omega) hj (by omega) hC
        rw [hstep]
        refine ⟨⟨ihB.1, ihC.1⟩, ?_⟩
        show yieldOf (chooseF bk f B i k) ++ yieldOf (chooseF bk f C (k + 1) j)
          = seg tokens i j
        rw [ihB.2, ihC.2, seg_append tokens i k j (by omega) hk2]
    · have hii : i = j := by omega
      subst hii
      rw [cykBack_diag] at hstep
      have hne : getB (diagBack g (tokens.getD i "")) A ≠ [] := by
        rw [getB_diagBack_ne_nil, ← mem_diagCell, ← cykCell_diag]
        exact hmem
      rcases hgb : getB (diagBack g (tokens.getD i "")) A with _ | ⟨r, rest⟩
      · exact absurd hgb hne
      · have hrmem : r ∈ getB (diagBack g (tokens.getD i "")) A := by
          rw [hgb]
          simp
        have hr := getB_diagBack_shape g (tokens.getD i "") A r hrmem
        subst hr
        rw [hgb] at hstep
        rw [hstep]
        refine ⟨trivial, ?_⟩
        show [tokens.getD i ""] = seg tokens i i
        rw [seg_single tokens i hj]

/-- C10: whenever the recognizer accepts a nonempty input, the tree
builder returns a tree, the degenerate bare-node fallback is never
reached, and the leaves spell the input exactly. -/
theorem c10_tree_faithful (g : Grammar) (tokens : List String)
    (hne : tokens ≠ [])
    (hacc : (cykWithPointers tokens g).accepted = true) :
    ∃ tr, buildParseTree g tokens (cykWithPointers tokens g).back = some tr ∧
      NoBare tr ∧ yieldOf tr = tokens := by
  have hn : 0 < tokens.length := List.length_pos.mpr hne
  have hmem : g.startSymbol ∈ cykCell g tokens 0 (tokens.length - 1) := by
    rw [cykWithPointers_accepted g tokens hne, decide_eq_true_eq] at hacc
    exact hacc
  have hbk : ∀ i j, i < tokens.length → j < tokens.length →
      backGet (cykWithPointers tokens g).back i j = cykBack g tokens i j := by
    intro i j hi hj
    rw [cykWithPointers_back g tokens hne, backGet_matrix, if_pos ⟨hi, hj⟩]
  have hgb : getB (backGet (cykWithPointers tokens g).back 0 (tokens.length - 1))
      g.startSymbol ≠ [] := by
    rw [hbk 0 (tokens.length - 1) hn (by omega),
      getB_cykBack_ne_nil g tokens 0 (tokens.length - 1) (by omega)]
    exact hmem
  have hchoose := chooseF_ok g tokens (cykWithPointers tokens g).back hbk
    (tokens.length - 1) 0 (tokens.length - 1) g.startSymbol tokens.length
    (by omega) (by omega) (by omega) (by omega) hmem
  refine ⟨chooseF (cykWithPointers tokens g).back tokens.length
    g.startSymbol 0 (tokens.length - 1), ?_, hchoose.1,
    hchoose.2.trans (seg_full tokens hne)⟩
  unfold buildParseTree
  rw [if_neg (by omega : ¬ tokens.length = 0), if_neg hgb]

/-- Witness for C10 at scenario A with input `ab`. -/
theorem c10_tree_faithful_witness :
    ∃ tr, buildParseTree scenA ["a", "b"]
        (cykWithPointers ["a", "b"] scenA).back = some tr ∧
      NoBare tr ∧ yieldOf tr = ["a", "b"] :=
  c10_tree_faithful scenA ["a", "b"] (by decide) (by decide)

end CykViz
namespace CykViz

/-! ## Claim C9: scenario D end to end -/

/-- C9: the PGC default grammar accepts `the cat chased a dog` and the
reconstructed tree is `S → (NP → Det N) (VP → V (NP → Det N))`. -/
theorem c9_scenario_d :
    scenDTokens = ["the", "cat", "chased", "a", "dog"] ∧
    (cykWithPointers scenDTokens scenD).accepted = true ∧
    buildParseTree scenD scenDTokens (cykWithPointers scenDTokens scenD).back
      = some (PTree.node "S"
          (PTree.node "NP" (PTree.leaf "Det" "the") (PTree.leaf "N" "cat"))
          (PTree.node "VP" (PTree.leaf "V" "chased")
            (PTree.node "NP" (PTree.leaf "Det" "a") (PTree.leaf "N" "dog")))) := by
  refine ⟨by decide, by decide, by decide⟩

/-! ## Claim C3: how the start symbol is chosen -/

theorem processProd_start (left : String) (st : PGState) (p : List Char) :
    (processProd left st p).start = st.start := by
  unfold processProd
  dsimp only
  repeat' split
  all_goals rfl

theorem foldl_processProd_start (left : String) (ps : List (List Char))
    (st : PGState) : (ps.foldl (processProd left) st).start = st.start := by
  induction ps generalizing st with
  | nil => rfl
  | cons p ps ih => rw [List.foldl_cons, ih, processProd_start]

theorem processLine_start_pos (st : PGState) (idx : Nat) (l : List Char)
    (h : idx ≠ 0) : (processLine st idx l).start = st.start := by
  unfold processLine
  cases hls : lineSplit l with
  | none => rfl
  | some k =>
    simp only []
    rw [foldl_processProd_start]
    simp [h]

theorem processLine_start_zero (st : PGState) (l : List Char) (k : Nat)
    (hls : lineSplit l = some k) :
    (processLine st 0 l).start
      = if leftOf l k ≠ "" then leftOf l k else st.start := by
  unfold processLine
  rw [hls]
  simp only []
  rw [foldl_processProd_start]
  by_cases hleft : leftOf l k = ""
  · simp [hleft]
  · simp [hleft]

theorem processLines_start_pos (ls : List (List Char)) :
    ∀ st idx, idx ≠ 0 → (processLines st idx ls).start = st.start := by
  induction ls with
  | nil => intro st idx _; rfl
  | cons l rest ih =>
    intro st idx h
    show (processLines (processLine st idx l) (idx + 1) rest).start = st.start
    rw [ih _ (idx + 1) (by omega), processLine_start_pos st idx l h]

/-- C3 (amended): the start symbol is taken from the *first* nonempty
line only — it equals that line's left-hand side when the line has an
arrow and a nonempty LHS, and stays the default `S` otherwise, even
when a later line is the first accepted one. -/
theorem c3_start_symbol (text : String) :
    (linesOf text = [] → (parseGrammarFromText text).startSymbol = "S") ∧
    (∀ l0 rest, linesOf text = l0 :: rest →
      (lineSplit l0 = none → (parseGrammarFromText text).startSymbol = "S") ∧
      (∀ k, lineSplit l0 = some k → leftOf l0 k = "" →
        (parseGrammarFromText text).startSymbol = "S") ∧
      (∀ k, lineSplit l0 = some k → leftOf l0 k ≠ "" →
        (parseGrammarFromText text).startSymbol = leftOf l0 k)) := by
  have hmain : (parseGrammarFromText text).startSymbol
      = (processLines ⟨[], [], [], "S"⟩ 0 (linesOf text)).start := rfl
  constructor
  · intro hnil
    rw [hmain, hnil]
    rfl
  · intro l0 rest hcons
    have hsplit : (parseGrammarFromText text).startSymbol
        = (processLine ⟨[], [], [], "S"⟩ 0 l0).start := by
      rw [hmain, hcons]
      show (processLines (processLine ⟨[], [], [], "S"⟩ 0 l0) 1 rest).start = _
      rw [processLines_start_pos rest _ 1 (by omega)]
    refine ⟨?_, ?_, ?_⟩
    · intro hns
      rw [hsplit]
      unfold processLine
      rw [hns]
    · intro k hk hleft
      rw [hsplit, processLine_start_zero _ l0 k hk]
      simp [hleft]
    · intro k hk hleft
      rw [hsplit, processLine_start_zero _ l0 k hk]
      simp [hleft]

/-- Counterexample to C3 as stated: in `x\nA -> a` the first accepted
line is `A -> a` with left-hand side `A`, but the compiled start symbol
is the untouched default `S`. -/
theorem c3_counterexample :
    (parseGrammarFromText "x\nA -> a").startSymbol = "S" ∧
    linesOf "x\nA -> a" = ["x".toList, "A -> a".toList] ∧
    lineSplit "x".toList = none ∧
    lineSplit "A -> a".toList = some 2 ∧
    leftOf "A -> a".toList 2 = "A" ∧
    ("S" : String) ≠ "A" := by decide

/-- Witness for the amended C3 on the single-line text `A -> a`. -/
theorem c3_start_symbol_witness :
    (parseGrammarFromText "A -> a").startSymbol = leftOf "A -> a".toList 2 :=
  ((c3_start_symbol "A -> a").2 "A -> a".toList [] (by decide)).2.2 2
    (by decide) (by decide)

end CykViz
namespace CykViz

/-! ## Claim C4: line splitting at the arrow -/

theorem findSubAux_spec (pat : List Char) :
    ∀ l i,
      (findSubAux pat l i = none → ∀ d, ¬ occursAt pat l d) ∧
      (∀ k, findSubAux pat l i = some k → i ≤ k ∧ occursAt pat l (k - i) ∧
        ∀ d < k - i, ¬ occursAt pat l d) := by
  intro l
  induction l with
  | nil =>
    intro i
    constructor
    · intro hn d
      unfold findSubAux at hn
      by_cases hp : pat.isPrefixOf ([] : List Char) = true
      · rw [if_pos hp] at hn
        cases hn
      · intro hocc
        unfold occursAt at hocc
        rw [List.drop_nil] at hocc
        exact hp hocc
    · intro k hk
      unfold findSubAux at hk
      by_cases hp : pat.isPrefixOf ([] : List Char) = true
      · rw [if_pos hp] at hk
        injection hk with hik
        subst hik
        refine ⟨le_refl _, ?_, ?_⟩
        · unfold occursAt
          rwa [Nat.sub_self, List.drop_zero]
        · intro d hd
          omega
      · rw [if_neg hp] at hk
        cases hk
  | cons c rest ih =>
    intro i
    constructor
    · intro hn d
      unfold findSubAux at hn
      by_cases hp : pat.isPrefixOf (c :: rest) = true
      · rw [if_pos hp] at hn
        cases hn
      · rw [if_neg hp] at hn
        cases d with
        | zero =>
          intro hocc
          unfold occursAt at hocc
          rw [List.drop_zero] at hocc
          exact hp hocc
        | succ d =>
          intro hocc
          unfold occursAt at hocc
          rw [List.drop_succ_cons] at hocc
          exact (ih (i + 1)).1 hn d hocc
    · intro k hk
      unfold findSubAux at hk
      by_cases hp : pat.isPrefixOf (c :: rest) = true
      · rw [if_pos hp] at hk
        injection hk with hik
        subst hik
        refine ⟨le_refl _, ?_, ?_⟩
        · unfold occursAt
          rwa [Nat.sub_self, List.drop_zero]
        · intro d hd
          omega
      · rw [if_neg hp] at hk
        obtain ⟨hik, hocc, hmin⟩ := (ih (i + 1)).2 k hk
        refine ⟨by omega, ?_, ?_⟩
        · unfold occursAt
          have hki : k - i = (k - (i + 1)) + 1 := by omega
          rw [hki, List.drop_succ_cons]
          exact hocc
        · intro d hd
          cases d with
          | zero =>
            intro hocc0
            unfold occursAt at hocc0
            rw [List.drop_zero] at hocc0
            exact hp hocc0
          | succ d =>
            intro hoccd
            unfold occursAt at hoccd
            rw [List.drop_succ_cons] at hoccd
            exact hmin d (by omega) hoccd

theorem findSub_spec (pat l : List Char) :
    (findSub pat l = none → ∀ d, ¬ occursAt pat l d) ∧
    (∀ k, findSub pat l = some k → occursAt pat l k ∧
      ∀ d < k, ¬ occursAt pat l d) := by
  have h := findSubAux_spec pat l 0
  refine ⟨h.1, ?_⟩
  intro k hk
  obtain ⟨_, h2, h3⟩ := h.2 k hk
  rw [Nat.sub_zero] at h2
  refine ⟨h2, ?_⟩
  intro d hd
  exact h3 d (by omega)

/-- C4 (amended): a line is split at the first occurrence of the ASCII
marker `->` when one exists, and otherwise at the first occurrence of
the Unicode marker `→`; lines with neither marker are skipped silently;
the right-hand side always starts two characters past the splitter
index (so after `→`, which is a single character, one extra character
is consumed). -/
theorem c4_line_split (line : List Char) :
    (lineSplit line = none ↔
      (∀ d, ¬ occursAt ['-', '>'] line d) ∧ (∀ d, ¬ occursAt ['→'] line d)) ∧
    (lineSplit line = none → ∀ st idx, processLine st idx line = st) ∧
    (∀ k, lineSplit line = some k →
      (occursAt ['-', '>'] line k ∧ (∀ d < k, ¬ occursAt ['-', '>'] line d)) ∨
      ((∀ d, ¬ occursAt ['-', '>'] line d) ∧ occursAt ['→'] line k ∧
        (∀ d < k, ¬ occursAt ['→'] line d))) ∧
    (∀ k, lineSplit line = some k →
      rightOf line k = trimL (line.drop (k + 2))) := by
  refine ⟨?_, ?_, ?_, fun k _ => rfl⟩
  · unfold lineSplit
    cases ha : findSub ['-', '>'] line with
    | some k =>
      simp only []
      constructor
      · intro h
        cases h
      · rintro ⟨hnoa, _⟩
        exact absurd ((findSub_spec ['-', '>'] line).2 k ha).1 (hnoa k)
    | none =>
      simp only []
      constructor
      · intro hu
        exact ⟨(findSub_spec ['-', '>'] line).1 ha,
          (findSub_spec ['→'] line).1 hu⟩
      · intro ⟨_, hnou⟩
        cases hu : findSub ['→'] line with
        | none => rfl
        | some k =>
          exact absurd ((findSub_spec ['→'] line).2 k hu).1 (hnou k)
  · intro hns st idx
    unfold processLine
    rw [hns]
  · intro k hk
    unfold lineSplit at hk
    cases ha : findSub ['-', '>'] line with
    | some k' =>
      rw [ha] at hk
      injection hk with hkk
      subst hkk
      exact Or.inl ((findSub_spec ['-', '>'] line).2 k' ha)
    | none =>
      rw [ha] at hk
      exact Or.inr ⟨(findSub_spec ['-', '>'] line).1 ha,
        (findSub_spec ['→'] line).2 k hk⟩

/-- Counterexample to C4 as stated: in `A→B->C` the first marker
occurrence is `→` at index 1, yet the code splits at the later `->`
(index 3); and in `A→x` the text after the marker is `x`, yet the
extracted right-hand side is empty because the code skips two
characters past the one-character marker. -/
theorem c4_counterexample :
    lineSplit "A→B->C".toList = some 3 ∧
    occursAt ['→'] "A→B->C".toList 1 ∧
    (1 : Nat) < 3 ∧
    lineSplit "A→x".toList = some 1 ∧
    trimL ("A→x".toList.drop 2) = ['x'] ∧
    rightOf "A→x".toList 1 = [] := by decide

/-- Witness for the amended C4 on the line `S -> AB`. -/
theorem c4_line_split_witness :
    (occursAt ['-', '>'] "S -> AB".toList 2 ∧
      (∀ d < 2, ¬ occursAt ['-', '>'] "S -> AB".toList d)) ∨
    ((∀ d, ¬ occursAt ['-', '>'] "S -> AB".toList d) ∧
      occursAt ['→'] "S -> AB".toList 2 ∧
      (∀ d < 2, ¬ occursAt ['→'] "S -> AB".toList d)) :=
  (c4_line_split "S -> AB".toList).2.2.1 2 (by decide)

end CykViz
namespace CykViz

/-! ## Claim C5: tokenization -/

theorem wsSplitGo_cons (skipping : Bool) (cur : List Char) (c : Char)
    (rest : List Char) :
    wsSplitGo skipping cur (c :: rest)
    = if isWs c = true then
        (if skipping then wsSplitGo true [] rest
         else cur.reverse :: wsSplitGo true [] rest)
      else wsSplitGo false (c :: cur) rest := rfl

theorem dropWhile_head_not (l : List Char) (c : Char) (r : List Char)
    (h : l.dropWhile isWs = c :: r) : isWs c = false := by
  induction l with
  | nil => exact List.noConfusion h
  | cons a l ih =>
    rw [List.dropWhile_cons] at h
    by_cases ha : isWs a = true
    · rw [if_pos ha] at h
      exact ih h
    · rw [if_neg ha] at h
      injection h with h1 _
      subst h1
      simpa using ha

theorem trimL_head (l : List Char) (c : Char) (r : List Char)
    (h : trimL l = c :: r) : isWs c = false := by
  have hpre : trimL l <+: l.dropWhile isWs := by
    unfold trimL
    have hsuf : (l.dropWhile isWs).reverse.dropWhile isWs
        <:+ (l.dropWhile isWs).reverse := List.dropWhile_suffix isWs
    have hp := List.reverse_prefix.mpr hsuf
    rwa [List.reverse_reverse] at hp
  obtain ⟨s, hs⟩ := hpre
  rw [h] at hs
  exact dropWhile_head_not l c (r ++ s) hs.symm

theorem trimL_getLast (l : List Char) (c : Char)
    (h : (trimL l).getLast? = some c) : isWs c = false := by
  have hrev : (trimL l).getLast?
      = ((l.dropWhile isWs).reverse.dropWhile isWs).head? := by
    unfold trimL
    rw [List.getLast?_reverse]
  rw [hrev] at h
  rcases hx : (l.dropWhile isWs).reverse.dropWhile isWs with _ | ⟨c', r'⟩
  · rw [hx] at h
    cases h
  · rw [hx] at h
    rw [List.head?_cons] at h
    injection h with h1
    exact h1 ▸ dropWhile_head_not _ c' r' hx

theorem wsSplitGo_no_nil : ∀ l : List Char,
    ((∀ c', l.getLast? = some c' → isWs c' = false) →
      ∀ cur, cur ≠ [] → ([] : List Char) ∉ wsSplitGo false cur l) ∧
    (l ≠ [] → (∀ c', l.getLast? = some c' → isWs c' = false) →
      ([] : List Char) ∉ wsSplitGo true [] l) := by
  intro l
  induction l with
  | nil =>
    constructor
    · intro _ cur hcur
      have h0 : wsSplitGo false cur [] = [cur.reverse] := rfl
      rw [h0]
      simp [List.reverse_eq_nil_iff, hcur]
    · intro h
      exact absurd rfl h
  | cons c rest ih =>
    have hP : rest ≠ [] →
        (∀ c', (c :: rest).getLast? = some c' → isWs c' = false) →
        (∀ c', rest.getLast? = some c' → isWs c' = false) := by
      intro hr hPl c' hc'
      apply hPl
      obtain ⟨b, L, rfl⟩ := List.exists_cons_of_ne_nil hr
      rwa [List.getLast?_cons_cons]
    have hrestne : isWs c = true →
        (∀ c', (c :: rest).getLast? = some c' → isWs c' = false) →
        rest ≠ [] := by
      intro hws hPl hr
      subst hr
      have hc := hPl c (by simp)
      rw [hc] at hws
      cases hws
    constructor
    · intro hPl cur hcur
      show ([] : List Char) ∉ wsSplitGo false cur (c :: rest)
      by_cases hws : isWs c = true
      · have h1 : wsSplitGo false cur (c :: rest)
            = cur.reverse :: wsSplitGo true [] rest := by
          rw [wsSplitGo_cons, if_pos hws]
          rfl
        rw [h1]
        intro hmem
        rcases List.mem_cons.mp hmem with h | h
        · exact hcur (by rwa [eq_comm, List.reverse_eq_nil_iff] at h)
        · have hr := hrestne hws hPl
          exact (ih.2 hr (hP hr hPl)) h
      · have h1 : wsSplitGo false cur (c :: rest)
            = wsSplitGo false (c :: cur) rest := by
          rw [wsSplitGo_cons, if_neg hws]
        rw [h1]
        have hPrest : ∀ c', rest.getLast? = some c' → isWs c' = false := by
          by_cases hr : rest = []
          · subst hr
            intro c' hc'
            simp at hc'
          · exact hP hr hPl
        exact ih.1 hPrest (c :: cur) (by simp)
    · intro _ hPl
      show ([] : List Char) ∉ wsSplitGo true [] (c :: rest)
      by_cases hws : isWs c = true
      · have h1 : wsSplitGo true [] (c :: rest) = wsSplitGo true [] rest := by
          rw [wsSplitGo_cons, if_pos hws]
          rfl
        rw [h1]
        have hr := hrestne hws hPl
        exact ih.2 hr (hP hr hPl)
      · have h1 : wsSplitGo true [] (c :: rest) = wsSplitGo false [c] rest := by
          rw [wsSplitGo_cons, if_neg hws]
        rw [h1]
        have hPrest : ∀ c', rest.getLast? = some c' → isWs c' = false := by
          by_cases hr : rest = []
          · subst hr
            intro c' hc'
            simp at hc'
          · exact hP hr hPl
        exact ih.1 hPrest [c] (by simp)

theorem wsSplit_no_nil (l : List Char) (hl : l ≠ [])
    (hhead : ∀ c r, l = c :: r → isWs c = false)
    (hlast : ∀ c, l.getLast? = some c → isWs c = false) :
    ([] : List Char) ∉ wsSplit l := by
  obtain ⟨c, r, rfl⟩ := List.exists_cons_of_ne_nil hl
  have hc : isWs c = false := hhead c r rfl
  unfold wsSplit
  have h1 : wsSplitGo false [] (c :: r) = wsSplitGo false [c] r := by
    rw [wsSplitGo_cons, if_neg (by simp [hc])]
  rw [h1]
  have hPrest : ∀ c', r.getLast? = some c' → isWs c' = false := by
    by_cases hr : r = []
    · subst hr
      intro c' hc'
      simp at hc'
    · intro c' hc'
      apply hlast
      obtain ⟨b, L, rfl⟩ := List.exists_cons_of_ne_nil hr
      rwa [List.getLast?_cons_cons]
  exact (wsSplitGo_no_nil r).1 hPrest [c] (by simp)

/-- On a trimmed nonempty input the raw JS split produces no empty
chunk, so it coincides with the whitespace-delimited words. -/
theorem wordsOf_trim (l : List Char) (h : trimL l ≠ []) :
    wordsOf (trimL l) = wsSplit (trimL l) := by
  unfold wordsOf
  apply List.filter_eq_self.mpr
  intro a ha
  rw [decide_eq_true_eq]
  intro hae
  subst hae
  have hnonil : ([] : List Char) ∉ wsSplit (trimL l) := by
    apply wsSplit_no_nil (trimL l) h
    · intro c r hc
      exact trimL_head l c r hc
    · intro c hc
      exact trimL_getLast l c hc
  exact hnonil ha

/-- C5 (amended): the Simulator handler decides its mode by presence of
a literal space character (not arbitrary whitespace): without a space
it character-tokenizes the trimmed input (empty input giving the empty
sequence); with a space it word-splits, yielding exactly the
whitespace-delimited words for nonempty trimmed input and a single
empty token when the input is whitespace only.  The PGC handler always
word-splits, never character-tokenizes. -/
theorem c5_tokenization (s : String) :
    (s = "" → simTokenize s = []) ∧
    (' ' ∉ s.toList → simTokenize s
      = (trimL s.toList).map (fun c => (⟨[c]⟩ : String))) ∧
    (' ' ∈ s.toList → trimL s.toList = [] → simTokenize s = [""]) ∧
    (' ' ∈ s.toList → trimL s.toList ≠ [] →
      simTokenize s = (wordsOf (trimL s.toList)).map (fun w => (⟨w⟩ : String))) ∧
    (trimL s.toList = [] → pgcTokenize s = [""]) ∧
    (trimL s.toList ≠ [] →
      pgcTokenize s = (wordsOf (trimL s.toList)).map (fun w => (⟨w⟩ : String))) := by
  refine ⟨?_, ?_, ?_, ?_, ?_, ?_⟩
  · rintro rfl
    rfl
  · intro h
    unfold simTokenize
    rw [if_neg h]
  · intro h htrim
    unfold simTokenize
    rw [if_pos h, htrim]
    rfl
  · intro h htrim
    unfold simTokenize
    rw [if_pos h, wordsOf_trim s.toList htrim]
  · intro htrim
    unfold pgcTokenize
    rw [htrim]
    rfl
  · intro htrim
    unfold pgcTokenize
    rw [wordsOf_trim s.toList htrim]

/-- Counterexample to C5 as stated: `a<TAB>b` contains whitespace but
no space, so the Simulator character-tokenizes it instead of producing
the words `a`, `b`; and the PGC handler word-tokenizes the
whitespace-free `ab` instead of character-tokenizing it. -/
theorem c5_counterexample :
    simTokenize "a\tb" = ["a", "\t", "b"] ∧
    (["a", "\t", "b"] : List String) ≠ ["a", "b"] ∧
    pgcTokenize "ab" = ["ab"] ∧
    (["ab"] : List String) ≠ ["a", "b"] := by decide

/-- Witness for the amended C5 on `the cat` and on `ab`. -/
theorem c5_tokenization_witness :
    simTokenize "the cat"
      = (wordsOf (trimL "the cat".toList)).map (fun w => (⟨w⟩ : String)) ∧
    simTokenize "ab" = (trimL "ab".toList).map (fun c => (⟨[c]⟩ : String)) :=
  ⟨(c5_tokenization "the cat").2.2.2.1 (by decide) (by decide),
   (c5_tokenization "ab").2.1 (by decide)⟩

end CykViz
